import Mathlib

/-!
Verification of the cuml fork's TSNE Barnes-Hut orchestrator
(`cpp/src/tsne/barnes_hut.h`), PCA fit entry checks (`cpp/src/pca/pca.h`)
and the symmetric eigensolver wrapper (`cpp/src/tsvd/sparse_svd/eigh.h`),
as a shallow embedding over exact rational arithmetic.

Host-side orchestration (the iteration loop, the exaggeration-phase
schedule, the Z normalization reduction, the mean scaling, the growth
bound update, buffer initialisation and the final copy-out) is translated
directly from `barnes_hut.h`.  The device kernels live in `bh_kernels.h`,
which is not part of this source tree; those are modelled from the spec
(sections 4.1-4.8) and are marked as such in their doc comments.
-/

/-! ## PCA: parameter checks of pcaFit (cpp/src/pca/pca.h lines 82-90) -/

/-- Parameter record for the PCA entry points, mirroring `paramsPCA`
(the fields the assertions and the clamp read). -/
structure paramsPCA where
  n_rows : ℤ
  n_cols : ℤ
  n_components : ℤ
  whiten : Bool
deriving Repr, DecidableEq

/-- The input-validation prefix of `pcaFit` (pca.h lines 82-90): three
`ASSERT`s, in source order, each aborting with its message, followed by the
single clamp `if (n_components > n_cols) n_components = n_cols`.  An
`ASSERT` failure is modelled as `Except.error` carrying the message. -/
def pcaFit (prms : paramsPCA) : Except String paramsPCA :=
  if ¬ (prms.n_cols > 1) then
    Except.error "Parameter n_cols: number of columns cannot be less than two"
  else if ¬ (prms.n_rows > 1) then
    Except.error "Parameter n_rows: number of rows cannot be less than two"
  else if ¬ (prms.n_components > 0) then
    Except.error "Parameter n_components: number of components cannot be less than one"
  else
    Except.ok (if prms.n_components > prms.n_cols then
                 { prms with n_components := prms.n_cols }
               else prms)

/-! ## eigh (cpp/src/tsvd/sparse_svd/eigh.h lines 80-93)

The divide-and-conquer solver `cusolverDnsyevd` is an external library
call; its output eigenvalue array is taken as the input `W` here (the
source comments record that it provides the smallest eigenvalues first).
`MLCommon::Matrix::colReverse` and `MLCommon::mySqrt` are MLCommon
helpers outside this tree. -/

/-- Modelled from the spec: `MLCommon::Matrix::colReverse` on a matrix
stored as a list of columns reverses the column order (on a 1 x p row
vector it reverses the p entries). -/
def colReverse (l : List α) : List α := l.reverse

/-- The post-solve tail of `eigh` (eigh.h lines 84-93): reverse `W`
(1 x p) and `V` (p columns), then, when `singular_values` is set, replace
each of the first `k` entries `x` of `W` by `mySqrt x` if `x > 0` else `0`
(the in-place `unaryOp` over `W` of length `k`).  `mySqrt` is passed in as
the abstract function `sq`. -/
def eigh (W : List ℚ) (V : List (List ℚ)) (k : ℕ) (singular_values : Bool)
    (sq : ℚ → ℚ) : List ℚ × List (List ℚ) :=
  let W1 := colReverse W
  let V1 := colReverse V
  let W2 := if singular_values then
              (W1.take k).map (fun x => if 0 < x then sq x else 0) ++ W1.drop k
            else W1
  (W2, V1)

/-! ## TSNE Barnes-Hut orchestrator (cpp/src/tsne/barnes_hut.h)

Positions, forces, gains and velocities are modelled per axis as
`List ℚ` of length `n` (the first `n` slots of the device arrays, the
only slots the points occupy).  The caller's `Y` buffer is a `List ℚ`
of length `2 n`: first `n` entries x-coordinates, next `n` entries
y-coordinates, exactly the layout `Barnes_Hut` documents and writes. -/

/-- The `Barnes_Hut` configuration parameters (barnes_hut.h lines 51-61).
`min_grad_norm` is accepted here because the source signature accepts it;
which definitions read it is the subject of the claims. -/
structure BHParams where
  theta : ℚ
  epssq : ℚ
  early_exaggeration : ℚ
  exaggeration_iter : ℤ
  min_gain : ℚ
  pre_learning_rate : ℚ
  post_learning_rate : ℚ
  max_iter : ℕ
  min_grad_norm : ℚ
  pre_momentum : ℚ
  post_momentum : ℚ
  random_state : ℤ
  pca_intialization : Bool
  n : ℕ
deriving Repr, DecidableEq

/-- The mutable state of one `Barnes_Hut` run: the affinity values `VAL`
(rescaled once at the exaggeration horizon), the embedding `YY` split into
axes, the attraction accumulator (aliasing the caller's `Y` buffer, line
105), gains (`gains_bh`), velocities (`old_forces`), the `Z_norm` cell,
the two schedule scalars (lines 220-221), the growth bound `max_bounds`
(line 63) and the loop counter `iter`. -/
structure BHState where
  VAL : List ℚ
  Yx : List ℚ
  Yy : List ℚ
  gainsx : List ℚ
  gainsy : List ℚ
  oldx : List ℚ
  oldy : List ℚ
  Z_norm : ℚ
  momentum : ℚ
  learning_rate : ℚ
  max_bounds : ℚ
  iter : ℕ
  attrx : List ℚ
  attry : List ℚ
deriving Repr, DecidableEq

/-- Modelled from the spec: a linear congruential update standing in for
the device RNG behind `random_vector` (bh_kernels.h, not in this tree);
the spec requires only a uniform small-magnitude fill that is a
reproducible function of the seed. -/
def lcg (x : ℕ) : ℕ := (1103515245 * x + 12345) % 2147483648

/-- Modelled from the spec: one pseudo-random rational in `[0, 1)`
derived from the seed and the slot index. -/
def randUnit (seed i : ℕ) : ℚ := (lcg (seed + i) : ℚ) / 2147483648

/-- Modelled from the spec: `random_vector(ptr, lo, hi, len, stream, seed)`
(bh_kernels.h): fills `len` slots with values in `[lo, hi]`, a
deterministic function of the seed. -/
def random_vector (lo hi : ℚ) (len : ℕ) (seed : ℤ) : List ℚ :=
  (List.range len).map (fun i => lo + (hi - lo) * randUnit seed.toNat i)

/-- The top-of-loop affinity rescale (barnes_hut.h lines 228-232): when
`iter == exaggeration_iter`, `LinAlg::scalarMultiply` multiplies every
entry of `VAL` by `1 / early_exaggeration`; otherwise `VAL` is untouched. -/
def stepVAL (P : BHParams) (iter : ℕ) (VAL : List ℚ) : List ℚ :=
  if (iter : ℤ) = P.exaggeration_iter then
    VAL.map (fun w => w * (1 / P.early_exaggeration))
  else VAL

/-- The top-of-loop momentum switch (barnes_hut.h lines 228-230): when
`iter == exaggeration_iter`, `momentum = post_momentum`; no other
assignment to `momentum` exists in the loop. -/
def stepMomentum (P : BHParams) (iter : ℕ) (m : ℚ) : ℚ :=
  if (iter : ℤ) = P.exaggeration_iter then P.post_momentum else m

/-- The Z normalization reduction (barnes_hut.h lines 310-311): the
in-place `unaryOp` replacing the raw `Z_norm` cell `x` by
`1.0f / (x - N_float)`. -/
def Z_norm_reduce (N_float x : ℚ) : ℚ := 1 / (x - N_float)

/-- Modelled from the spec: the unnormalized low-dimensional affinity
`(1 + squared distance)⁻¹` accumulated into `Z` by the repulsion
traversal (section 4.5); a point's self term has distance 0 and
contributes 1. -/
def qZ (xi yi xj yj : ℚ) : ℚ := 1 / (1 + ((xi - xj) ^ 2 + (yi - yj) ^ 2))

/-- Modelled from the spec: the jittered interaction kernel
`(1 + squared distance + jitter)⁻¹` used for the repulsive force terms
(section 4.5). -/
def qF (eps xi yi xj yj : ℚ) : ℚ :=
  1 / (1 + ((xi - xj) ^ 2 + (yi - yj) ^ 2) + eps)

/-- Modelled from the spec: the raw value accumulated into the `Z_norm`
cell by `RepulsionKernel` (bh_kernels.h; spec section 4.5, at the exact
theta = 0 baseline of section 8): the sum of the unnormalized affinities
over all ordered pairs, self pairs included (each self pair contributes
1, which the later `- N` removes). -/
def repulsionZsum (Yx Yy : List ℚ) (n : ℕ) : ℚ :=
  ((List.range n).map (fun i =>
    ((List.range n).map (fun j =>
      qZ (Yx.getD i 0) (Yy.getD i 0) (Yx.getD j 0) (Yy.getD j 0))).sum)).sum

/-- Modelled from the spec: the x components of the repulsive forces
written to `rep_forces` by `RepulsionKernel` (spec section 4.5, exact
baseline): point `i` accumulates `kernel² · (xi - xj)` over `j ≠ i`. -/
def repFx (eps : ℚ) (Yx Yy : List ℚ) (n : ℕ) : List ℚ :=
  (List.range n).map (fun i =>
    ((List.range n).map (fun j =>
      if j = i then 0 else
        (qF eps (Yx.getD i 0) (Yy.getD i 0) (Yx.getD j 0) (Yy.getD j 0)) ^ 2
          * (Yx.getD i 0 - Yx.getD j 0))).sum)

/-- Modelled from the spec: the y components of the repulsive forces,
symmetric to `repFx`. -/
def repFy (eps : ℚ) (Yx Yy : List ℚ) (n : ℕ) : List ℚ :=
  (List.range n).map (fun i =>
    ((List.range n).map (fun j =>
      if j = i then 0 else
        (qF eps (Yx.getD i 0) (Yy.getD i 0) (Yx.getD j 0) (Yy.getD j 0)) ^ 2
          * (Yy.getD i 0 - Yy.getD j 0))).sum)

/-- Modelled from the spec: `attractive_kernel_bh` (bh_kernels.h; spec
section 4.6) on the zeroed accumulator (the `cudaMemsetAsync` of
`attr_forces` at barnes_hut.h line 322): starting from zeros, every edge
`(ROW e, COL e, VAL e)` adds `w · (1 + distance²)⁻¹ · (y_i - y_j)` into
row `i` of each axis. -/
def attraction (VAL : List ℚ) (COL ROW : List ℕ) (Yx Yy : List ℚ) (n : ℕ) :
    List ℚ × List ℚ :=
  (List.range VAL.length).foldl (fun acc e =>
    let i := ROW.getD e 0
    let j := COL.getD e 0
    let w := VAL.getD e 0
    let dx := Yx.getD i 0 - Yx.getD j 0
    let dy := Yy.getD i 0 - Yy.getD j 0
    let kq := 1 / (1 + dx ^ 2 + dy ^ 2)
    (acc.1.set i (acc.1.getD i 0 + w * kq * dx),
     acc.2.set i (acc.2.getD i 0 + w * kq * dy)))
    (List.replicate n (0 : ℚ), List.replicate n (0 : ℚ))

/-- Sign of a rational, used for the gain sign-agreement test. -/
def signQ (x : ℚ) : ℚ := if 0 < x then 1 else if x < 0 then -1 else 0

/-- Clamp a coordinate into `[-b, b]` (the growth-bound position clamp,
spec section 4.7). -/
def clampQ (b x : ℚ) : ℚ := if b < x then b else if x < -b then -b else x

/-- The net per-axis gradient estimate combined by the integrator: the
attractive term together with the repulsive term multiplied by the
`Z_norm` reciprocal (spec section 4.7). -/
def integGrad (attr rep Z : ℚ) : ℚ := attr - Z * rep

/-- Modelled from the spec: the gain update of section 4.7 - if the
gradient sign agrees with the previous velocity sign the gain grows by
0.2, otherwise it shrinks by the factor 0.8, and it is clamped to never
fall below the configured floor. -/
def gainUpdate (min_gain g grad vel : ℚ) : ℚ :=
  let g1 := if signQ grad = signQ vel then g + 1 / 5 else g * (4 / 5)
  if g1 < min_gain then min_gain else g1

/-- Modelled from the spec: one point-axis slot of `IntegrationKernel`
(bh_kernels.h; spec section 4.7): gradient, gain update, velocity update
`momentum · vel - learning_rate · gain · gradient`, position advance and
growth-bound clamp.  Returns (new position, new gain, new velocity). -/
def integStep (lr mom min_gain bound Z : ℚ)
    (pos attr rep gains vel : List ℚ) (i : ℕ) : ℚ × ℚ × ℚ :=
  let grad := integGrad (attr.getD i 0) (rep.getD i 0) Z
  let g := gainUpdate min_gain (gains.getD i 1) grad (vel.getD i 0)
  let v := mom * vel.getD i 0 - lr * g * grad
  (clampQ bound (pos.getD i 0 + v), g, v)

/-- Modelled from the spec: the updated (pre-centering) positions of one
axis after `IntegrationKernel`. -/
def integPos (lr mom min_gain bound Z : ℚ)
    (pos attr rep gains vel : List ℚ) (n : ℕ) : List ℚ :=
  (List.range n).map (fun i => (integStep lr mom min_gain bound Z pos attr rep gains vel i).1)

/-- Modelled from the spec: the updated gains of one axis. -/
def integGainL (lr mom min_gain bound Z : ℚ)
    (pos attr rep gains vel : List ℚ) (n : ℕ) : List ℚ :=
  (List.range n).map (fun i => (integStep lr mom min_gain bound Z pos attr rep gains vel i).2.1)

/-- Modelled from the spec: the updated velocities (`old_forces`) of one
axis. -/
def integVelL (lr mom min_gain bound Z : ℚ)
    (pos attr rep gains vel : List ℚ) (n : ℕ) : List ℚ :=
  (List.range n).map (fun i => (integStep lr mom min_gain bound Z pos attr rep gains vel i).2.2)

/-- Modelled from the spec: the `mean_centre` kernel (bh_kernels.h)
subtracts the already-scaled mean from every coordinate of one axis. -/
def mean_centre (l : List ℚ) (m : ℚ) : List ℚ := l.map (fun x => x - m)

/-- One axis of the integrate-then-recentre tail of the loop body: the
per-axis coordinate sum accumulated by `IntegrationKernel` is multiplied
by `div_N = 1 / N` (the `unaryOp` of barnes_hut.h lines 344-345) and
`mean_centre` subtracts it from every coordinate. -/
def centreStep (n : ℕ) (l : List ℚ) : List ℚ :=
  mean_centre l (l.sum * (1 / (n : ℚ)))

/-- The `VAL` array as seen by the iteration body after the top-of-loop
rescale. -/
def bodyVAL (P : BHParams) (s : BHState) : List ℚ := stepVAL P s.iter s.VAL

/-- The momentum passed to `IntegrationKernel` in the current iteration
(after the top-of-loop switch). -/
def bodyMomentum (P : BHParams) (s : BHState) : ℚ := stepMomentum P s.iter s.momentum

/-- The content of the `Z_norm` cell after the reduction of barnes_hut.h
lines 310-311: the raw repulsion accumulator with `N_float` subtracted,
reciprocated. -/
def bodyZ (P : BHParams) (s : BHState) : ℚ :=
  Z_norm_reduce (P.n : ℚ) (repulsionZsum s.Yx s.Yy P.n)

/-- The attraction accumulator produced this iteration (zeroed, then
filled from the affinity edges). -/
def bodyAttr (P : BHParams) (COL ROW : List ℕ) (s : BHState) : List ℚ × List ℚ :=
  attraction (bodyVAL P s) COL ROW s.Yx s.Yy P.n

/-- The x positions produced by `IntegrationKernel` this iteration,
before mean re-centering. -/
def bodyPosX (P : BHParams) (COL ROW : List ℕ) (s : BHState) : List ℚ :=
  integPos s.learning_rate (bodyMomentum P s) P.min_gain s.max_bounds (bodyZ P s)
    s.Yx (bodyAttr P COL ROW s).1 (repFx P.epssq s.Yx s.Yy P.n) s.gainsx s.oldx P.n

/-- The y positions produced by `IntegrationKernel` this iteration,
before mean re-centering. -/
def bodyPosY (P : BHParams) (COL ROW : List ℕ) (s : BHState) : List ℚ :=
  integPos s.learning_rate (bodyMomentum P s) P.min_gain s.max_bounds (bodyZ P s)
    s.Yy (bodyAttr P COL ROW s).2 (repFy P.epssq s.Yx s.Yy P.n) s.gainsy s.oldy P.n

/-- One full iteration of the `Barnes_Hut` loop body (barnes_hut.h lines
223-356): the exaggeration-horizon switch, the pipeline (here the parts
with observable state: repulsion raw sum, Z reduction, attraction on the
zeroed accumulator, integration, mean re-centering), and the trailing
`max_bounds += 0.01f`. -/
def bh_step (P : BHParams) (COL ROW : List ℕ) (s : BHState) : BHState :=
  { VAL := bodyVAL P s
    Yx := centreStep P.n (bodyPosX P COL ROW s)
    Yy := centreStep P.n (bodyPosY P COL ROW s)
    gainsx := integGainL s.learning_rate (bodyMomentum P s) P.min_gain s.max_bounds
      (bodyZ P s) s.Yx (bodyAttr P COL ROW s).1 (repFx P.epssq s.Yx s.Yy P.n) s.gainsx s.oldx P.n
    gainsy := integGainL s.learning_rate (bodyMomentum P s) P.min_gain s.max_bounds
      (bodyZ P s) s.Yy (bodyAttr P COL ROW s).2 (repFy P.epssq s.Yx s.Yy P.n) s.gainsy s.oldy P.n
    oldx := integVelL s.learning_rate (bodyMomentum P s) P.min_gain s.max_bounds
      (bodyZ P s) s.Yx (bodyAttr P COL ROW s).1 (repFx P.epssq s.Yx s.Yy P.n) s.gainsx s.oldx P.n
    oldy := integVelL s.learning_rate (bodyMomentum P s) P.min_gain s.max_bounds
      (bodyZ P s) s.Yy (bodyAttr P COL ROW s).2 (repFy P.epssq s.Yx s.Yy P.n) s.gainsy s.oldy P.n
    Z_norm := bodyZ P s
    momentum := bodyMomentum P s
    learning_rate := s.learning_rate
    max_bounds := s.max_bounds + 1 / 100
    iter := s.iter + 1
    attrx := (bodyAttr P COL ROW s).1
    attry := (bodyAttr P COL ROW s).2 }

/-- `k` iterations of the loop body. -/
def bh_loop (P : BHParams) (COL ROW : List ℕ) (k : ℕ) (s : BHState) : BHState :=
  match k with
  | 0 => s
  | k + 1 => bh_step P COL ROW (bh_loop P COL ROW k s)

/-- The state on entry to the loop (barnes_hut.h lines 63, 180, 184,
193-201, 220-221): positions either copied from the caller's `Y` (PCA
initialization) or randomly filled from the seed; the attraction
accumulator aliases the caller's `Y` buffer, so it starts holding the
caller's bytes; gains filled with 1; `old_forces` zeroed; `momentum` and
`learning_rate` start at their pre-phase values; `max_bounds` starts at
100. -/
def bh_init (P : BHParams) (VAL0 Yin : List ℚ) : BHState :=
  { VAL := VAL0
    Yx := if P.pca_intialization then Yin.take P.n
          else (random_vector (-(1 / 1000)) (1 / 1000) (2 * P.n) P.random_state).take P.n
    Yy := if P.pca_intialization then (Yin.drop P.n).take P.n
          else (random_vector (-(1 / 1000)) (1 / 1000) (2 * P.n) P.random_state).drop P.n
    gainsx := List.replicate P.n 1
    gainsy := List.replicate P.n 1
    oldx := List.replicate P.n 0
    oldy := List.replicate P.n 0
    Z_norm := 0
    momentum := P.pre_momentum
    learning_rate := P.pre_learning_rate
    max_bounds := 100
    iter := 0
    attrx := Yin.take P.n
    attry := (Yin.drop P.n).take P.n }

/-- The full `Barnes_Hut` entry point: initialise, run the loop for
`max_iter` iterations, and copy the final positions back into the
caller's `Y` buffer (barnes_hut.h lines 359-361: first `n` entries the x
coordinates, next `n` entries the y coordinates). -/
def Barnes_Hut (P : BHParams) (COL ROW : List ℕ) (VAL0 Yin : List ℚ) : List ℚ :=
  let sfin := bh_loop P COL ROW P.max_iter (bh_init P VAL0 Yin)
  sfin.Yx.take P.n ++ sfin.Yy.take P.n

/-- The momentum coefficient the integrator uses during iteration `i` of
a run. -/
def momentum_used (P : BHParams) (COL ROW : List ℕ) (VAL0 Yin : List ℚ) (i : ℕ) : ℚ :=
  bodyMomentum P (bh_loop P COL ROW i (bh_init P VAL0 Yin))

/-- The learning rate the integrator uses during iteration `i` of a run
(the loop body contains no assignment to `learning_rate`, so the body
value is the state value). -/
def learning_rate_used (P : BHParams) (COL ROW : List ℕ) (VAL0 Yin : List ℚ) (i : ℕ) : ℚ :=
  (bh_loop P COL ROW i (bh_init P VAL0 Yin)).learning_rate

/-- The affinity array the attraction engine reads during iteration `i`
of a run. -/
def VAL_used (P : BHParams) (COL ROW : List ℕ) (VAL0 Yin : List ℚ) (i : ℕ) : List ℚ :=
  bodyVAL P (bh_loop P COL ROW i (bh_init P VAL0 Yin))

/-! ## Shared lemmas -/

theorem bh_loop_zero (P : BHParams) (C R : List ℕ) (s : BHState) :
    bh_loop P C R 0 s = s := rfl

theorem bh_loop_succ (P : BHParams) (C R : List ℕ) (k : ℕ) (s : BHState) :
    bh_loop P C R (k + 1) s = bh_step P C R (bh_loop P C R k s) := rfl

theorem bh_loop_iter_eq (P : BHParams) (C R : List ℕ) (s : BHState) :
    ∀ k, (bh_loop P C R k s).iter = s.iter + k := by
  intro k
  induction k with
  | zero => rfl
  | succ k ih =>
    have h1 : (bh_loop P C R (k + 1) s).iter = (bh_loop P C R k s).iter + 1 := rfl
    omega

theorem bh_loop_lr_eq (P : BHParams) (C R : List ℕ) (s : BHState) :
    ∀ k, (bh_loop P C R k s).learning_rate = s.learning_rate := by
  intro k
  induction k with
  | zero => rfl
  | succ k ih =>
    have h1 : (bh_loop P C R (k + 1) s).learning_rate
        = (bh_loop P C R k s).learning_rate := rfl
    rw [h1, ih]

/-! ## Claim theorems -/

/-- Claim C7: `pcaFit` fails fast (a descriptive, non-recoverable abort)
exactly when `n_cols <= 1`, `n_rows <= 1` or `n_components <= 0`, and the
only coercion performed on inputs passing the assertions is the clamp of
`n_components` down to `n_cols`: the accepted parameter set is the input
with `n_components` replaced by `min n_components n_cols` and every other
field unchanged. -/
theorem pcaFit_validation (prms : paramsPCA) :
    ((prms.n_cols ≤ 1 ∨ prms.n_rows ≤ 1 ∨ prms.n_components ≤ 0) ↔
      ∃ msg, pcaFit prms = Except.error msg) ∧
    (1 < prms.n_cols → 1 < prms.n_rows → 0 < prms.n_components →
      pcaFit prms
        = Except.ok { prms with n_components := min prms.n_components prms.n_cols }) := by
  have hok : 1 < prms.n_cols → 1 < prms.n_rows → 0 < prms.n_components →
      pcaFit prms
        = Except.ok { prms with n_components := min prms.n_components prms.n_cols } := by
    intro h1 h2 h3
    unfold pcaFit
    rw [if_neg (by omega), if_neg (by omega), if_neg (by omega)]
    by_cases h4 : prms.n_components > prms.n_cols
    · rw [if_pos h4, show min prms.n_components prms.n_cols = prms.n_cols by omega]
    · rw [if_neg h4, show min prms.n_components prms.n_cols = prms.n_components by omega]
  refine ⟨⟨?_, ?_⟩, hok⟩
  · intro h
    unfold pcaFit
    by_cases h1 : prms.n_cols ≤ 1
    · rw [if_pos (by omega)]; exact ⟨_, rfl⟩
    · rw [if_neg (by omega)]
      by_cases h2 : prms.n_rows ≤ 1
      · rw [if_pos (by omega)]; exact ⟨_, rfl⟩
      · rw [if_neg (by omega), if_pos (by omega)]; exact ⟨_, rfl⟩
  · rintro ⟨msg, hmsg⟩
    by_contra hcon
    push_neg at hcon
    rw [hok (by omega) (by omega) (by omega)] at hmsg
    exact Except.noConfusion hmsg

/-- Witness for C7: with 5 rows, 3 columns and 7 requested components the
checks pass and the only coercion is the clamp to 3 components; with 1
column the call aborts. -/
theorem pcaFit_validation_witness :
    pcaFit ⟨5, 3, 7, false⟩ = Except.ok ⟨5, 3, min 7 3, false⟩ ∧
    (∃ msg, pcaFit ⟨5, 1, 7, false⟩ = Except.error msg) := by
  constructor
  · exact (pcaFit_validation ⟨5, 3, 7, false⟩).2 (by decide) (by decide) (by decide)
  · exact (pcaFit_validation ⟨5, 1, 7, false⟩).1.mp (by decide)

/-- Claim C6: the growth bound `max_bounds` starts at its initial value
100 and grows by exactly the fixed increment 0.01 at the end of every
iteration of the loop, hence strictly increases and never decreases. -/
theorem max_bounds_growth (P : BHParams) (C R : List ℕ) (V Y : List ℚ) :
    (bh_init P V Y).max_bounds = 100 ∧
    (∀ k, (bh_loop P C R (k + 1) (bh_init P V Y)).max_bounds
        = (bh_loop P C R k (bh_init P V Y)).max_bounds + 1 / 100) ∧
    (∀ k, (bh_loop P C R k (bh_init P V Y)).max_bounds
        < (bh_loop P C R (k + 1) (bh_init P V Y)).max_bounds) := by
  refine ⟨rfl, fun k => rfl, fun k => ?_⟩
  have h : (bh_loop P C R (k + 1) (bh_init P V Y)).max_bounds
      = (bh_loop P C R k (bh_init P V Y)).max_bounds + 1 / 100 := rfl
  rw [h]
  linarith

/-- Claim C4: in every iteration the `Z_norm` cell ends up holding the
reciprocal of the raw repulsion accumulator minus exactly `N` (the point
count), and multiplying the repulsive term by that reciprocal inside the
integrator's gradient is division of the repulsive term by
`Z = raw sum - N`. -/
theorem Z_normalization (P : BHParams) (C R : List ℕ) (s : BHState) :
    (bh_step P C R s).Z_norm
      = 1 / (repulsionZsum s.Yx s.Yy P.n - (P.n : ℚ)) ∧
    (∀ attr rep x N : ℚ,
      integGrad attr rep (Z_norm_reduce N x) = attr - rep / (x - N)) := by
  refine ⟨rfl, fun attr rep x N => ?_⟩
  unfold integGrad Z_norm_reduce
  ring

/-- Claim C1 (refuted as stated): the learning rate the integrator uses
is `pre_learning_rate` at every iteration of every run; the loop body
assigns `post_momentum` to the momentum at the exaggeration horizon but
contains no corresponding assignment of `post_learning_rate`, so the
learning rate never switches. -/
theorem learning_rate_never_switches (P : BHParams) (C R : List ℕ)
    (V Y : List ℚ) (i : ℕ) :
    learning_rate_used P C R V Y i = P.pre_learning_rate := by
  unfold learning_rate_used
  rw [bh_loop_lr_eq]
  rfl

theorem bh_step_min_grad (P : BHParams) (a : ℚ) (C R : List ℕ) (s : BHState) :
    bh_step { P with min_grad_norm := a } C R s = bh_step P C R s := rfl

theorem bh_loop_min_grad (P : BHParams) (a : ℚ) (C R : List ℕ) :
    ∀ k s, bh_loop { P with min_grad_norm := a } C R k s = bh_loop P C R k s := by
  intro k
  induction k with
  | zero => intro s; rfl
  | succ k ih =>
    intro s
    rw [bh_loop_succ, bh_loop_succ, ih, bh_step_min_grad]

/-- Claim C2: the loop body executes exactly `max_iter` times (each pass
advances the iteration counter by one and nothing else touches it, with
no early exit), and `min_grad_norm` is read by nothing, so two runs that
differ only in `min_grad_norm` return identical final embeddings. -/
theorem min_grad_norm_unused (P : BHParams) (C R : List ℕ) (V Y : List ℚ) (a b : ℚ) :
    Barnes_Hut { P with min_grad_norm := a } C R V Y
      = Barnes_Hut { P with min_grad_norm := b } C R V Y ∧
    (bh_loop P C R P.max_iter (bh_init P V Y)).iter = P.max_iter := by
  constructor
  · have e : ∀ c : ℚ, Barnes_Hut { P with min_grad_norm := c } C R V Y
        = (bh_loop { P with min_grad_norm := c } C R P.max_iter (bh_init P V Y)).Yx.take P.n
          ++ (bh_loop { P with min_grad_norm := c } C R P.max_iter (bh_init P V Y)).Yy.take P.n :=
      fun c => rfl
    rw [e a, e b, bh_loop_min_grad P a C R, bh_loop_min_grad P b C R]
  · have h := bh_loop_iter_eq P C R (bh_init P V Y) P.max_iter
    have h0 : (bh_init P V Y).iter = 0 := rfl
    omega

theorem bh_loop_VAL_closed (P : BHParams) (C R : List ℕ) (V Y : List ℚ) (hn : ℕ)
    (hh : P.exaggeration_iter = (hn : ℤ)) :
    ∀ k, (bh_loop P C R k (bh_init P V Y)).VAL
      = if hn < k then V.map (fun w => w * (1 / P.early_exaggeration)) else V := by
  intro k
  induction k with
  | zero =>
    rw [bh_loop_zero, if_neg (by omega)]
    rfl
  | succ k ih =>
    have hstep : (bh_loop P C R (k + 1) (bh_init P V Y)).VAL
        = stepVAL P (bh_loop P C R k (bh_init P V Y)).iter
            (bh_loop P C R k (bh_init P V Y)).VAL := rfl
    have hit : (bh_loop P C R k (bh_init P V Y)).iter = k := by
      have h := bh_loop_iter_eq P C R (bh_init P V Y) k
      have h0 : (bh_init P V Y).iter = 0 := rfl
      omega
    rw [hstep, hit, ih]
    unfold stepVAL
    rw [hh]
    by_cases hk : k = hn
    · subst hk
      rw [if_pos rfl, if_neg (by omega), if_pos (by omega)]
    · rw [if_neg (fun hcast => hk (by exact_mod_cast hcast))]
      by_cases hlt : hn < k
      · rw [if_pos hlt, if_pos (by omega)]
      · rw [if_neg hlt, if_neg (by omega)]

theorem sum_map_mul_inv (ex : ℚ) (hex : ex ≠ 0) (l : List ℚ) :
    l.sum = ex * (l.map (fun w => w * (1 / ex))).sum := by
  induction l with
  | nil => simp
  | cons a t ih =>
    simp only [List.map_cons, List.sum_cons, mul_add]
    rw [← ih, show ex * (a * (1 / ex)) = a by field_simp]

/-- Claim C3: with a nonnegative exaggeration horizon `hn`, the affinity
array the pipeline reads equals the caller's original `VAL` at every
iteration before the horizon and equals the original divided by the
exaggeration factor (applied exactly once) at the horizon iteration and
at every iteration after it; consequently the weight sum before the
horizon is the exaggeration factor times the weight sum after it. -/
theorem VAL_rescaled_once (P : BHParams) (C R : List ℕ) (V Y : List ℚ) (hn : ℕ)
    (hh : P.exaggeration_iter = (hn : ℤ)) (hex : P.early_exaggeration ≠ 0) :
    (∀ i, VAL_used P C R V Y i
        = if hn ≤ i then V.map (fun w => w * (1 / P.early_exaggeration)) else V) ∧
    V.sum = P.early_exaggeration
        * (V.map (fun w => w * (1 / P.early_exaggeration))).sum := by
  constructor
  · intro i
    have hit : (bh_loop P C R i (bh_init P V Y)).iter = i := by
      have h := bh_loop_iter_eq P C R (bh_init P V Y) i
      have h0 : (bh_init P V Y).iter = 0 := rfl
      omega
    have hbody : VAL_used P C R V Y i
        = stepVAL P i (bh_loop P C R i (bh_init P V Y)).VAL := by
      unfold VAL_used bodyVAL
      rw [hit]
    rw [hbody, bh_loop_VAL_closed P C R V Y hn hh i]
    unfold stepVAL
    rw [hh]
    by_cases hk : i = hn
    · subst hk
      rw [if_pos rfl, if_neg (by omega), if_pos (by omega)]
    · rw [if_neg (fun hcast => hk (by exact_mod_cast hcast))]
      by_cases hlt : hn < i
      · rw [if_pos hlt, if_pos (by omega)]
      · rw [if_neg hlt, if_neg (by omega)]
  · exact sum_map_mul_inv P.early_exaggeration hex V

/-- Witness for C3: a run with horizon 1 and exaggeration factor 12 on
the weight list `[3, 9]` reads the original weights at iteration 0 and
the once-divided weights at iteration 2, and the weight sums stand in
the 12 : 1 ratio. -/
theorem VAL_rescaled_once_witness :
    VAL_used ⟨0, 0, 12, 1, 0, 0, 0, 0, 0, 0, 0, 0, false, 0⟩ [] [] [3, 9] [] 0 = [3, 9] ∧
    VAL_used ⟨0, 0, 12, 1, 0, 0, 0, 0, 0, 0, 0, 0, false, 0⟩ [] [] [3, 9] [] 2
      = ([3, 9] : List ℚ).map (fun w => w * (1 / 12)) ∧
    ([3, 9] : List ℚ).sum
      = 12 * (([3, 9] : List ℚ).map (fun w => w * (1 / 12))).sum := by
  have h := VAL_rescaled_once ⟨0, 0, 12, 1, 0, 0, 0, 0, 0, 0, 0, 0, false, 0⟩
    [] [] [3, 9] [] 1 rfl (by norm_num)
  refine ⟨?_, ?_, h.2⟩
  · have h0 := h.1 0
    rw [if_neg (by omega)] at h0
    exact h0
  · have h2 := h.1 2
    rw [if_pos (by omega)] at h2
    exact h2

theorem sum_map_sub_const (l : List ℚ) (m : ℚ) :
    (l.map (fun x => x - m)).sum = l.sum - l.length * m := by
  induction l with
  | nil => simp
  | cons a t ih =>
    simp only [List.map_cons, List.sum_cons, List.length_cons, ih]
    push_cast
    ring

theorem integPos_length (lr mom min_gain bound Z : ℚ)
    (pos attr rep gains vel : List ℚ) (n : ℕ) :
    (integPos lr mom min_gain bound Z pos attr rep gains vel n).length = n := by
  unfold integPos
  simp

theorem centreStep_sum (n : ℕ) (hn : 0 < n) (l : List ℚ) (hl : l.length = n) :
    (centreStep n l).sum = 0 := by
  unfold centreStep mean_centre
  rw [sum_map_sub_const, hl]
  have hne : (n : ℚ) ≠ 0 := Nat.cast_ne_zero.mpr hn.ne'
  field_simp

/-- Claim C5: at the end of every iteration, after the re-centering step
(the per-axis coordinate sums scaled by `1/N` and subtracted from every
position), the sum - and hence the mean - of the `N` embedded positions
is zero on both axes, exactly, for every starting state. -/
theorem recentering_zero_mean (P : BHParams) (C R : List ℕ) (s : BHState)
    (hn : 0 < P.n) :
    (bh_step P C R s).Yx.sum = 0 ∧ (bh_step P C R s).Yy.sum = 0 ∧
    (bh_step P C R s).Yx.sum / (P.n : ℚ) = 0 ∧
    (bh_step P C R s).Yy.sum / (P.n : ℚ) = 0 := by
  have hx : (bh_step P C R s).Yx = centreStep P.n (bodyPosX P C R s) := rfl
  have hy : (bh_step P C R s).Yy = centreStep P.n (bodyPosY P C R s) := rfl
  have hlx : (bodyPosX P C R s).length = P.n :=
    integPos_length _ _ _ _ _ _ _ _ _ _ _
  have hly : (bodyPosY P C R s).length = P.n :=
    integPos_length _ _ _ _ _ _ _ _ _ _ _
  have h1 : (bh_step P C R s).Yx.sum = 0 := by
    rw [hx]; exact centreStep_sum P.n hn _ hlx
  have h2 : (bh_step P C R s).Yy.sum = 0 := by
    rw [hy]; exact centreStep_sum P.n hn _ hly
  exact ⟨h1, h2, by rw [h1]; simp, by rw [h2]; simp⟩

/-- Witness for C5: a single-point run (n = 1) has both coordinate sums
equal to zero after the step's re-centering. -/
theorem recentering_zero_mean_witness :
    0 < (1 : ℕ) ∧
    (bh_step ⟨1/2, 1/400, 12, 250, 1/100, 200, 500, 1, 0, 1/2, 4/5, 0, false, 1⟩ [] []
      ⟨[], [1], [2], [1], [1], [0], [0], 0, 1/2, 200, 100, 0, [0], [0]⟩).Yx.sum = 0 := by
  refine ⟨by decide, ?_⟩
  exact (recentering_zero_mean
    ⟨1/2, 1/400, 12, 250, 1/100, 200, 500, 1, 0, 1/2, 4/5, 0, false, 1⟩ [] []
    ⟨[], [1], [2], [1], [1], [0], [0], 0, 1/2, 200, 100, 0, [0], [0]⟩ (by decide)).1

/-- Claim C8: the whole pipeline is a deterministic function of the
inputs, the parameters and the seed - the random initialisation is the
reproducible function `random_vector` of the seed, and every phase is a
pure transform - so two complete runs on equal inputs return identical
final embeddings. -/
theorem run_deterministic (P Q : BHParams) (Ca Ra Cb Rb : List ℕ)
    (Va Vb Ya Yb : List ℚ) (hseed : 0 ≤ P.random_state)
    (hP : P = Q) (hC : Ca = Cb) (hR : Ra = Rb) (hV : Va = Vb) (hY : Ya = Yb) :
    Barnes_Hut P Ca Ra Va Ya = Barnes_Hut Q Cb Rb Vb Yb := by
  subst hP hC hR hV hY
  rfl

/-- Witness for C8: two runs of the same seeded configuration coincide. -/
theorem run_deterministic_witness :
    Barnes_Hut ⟨1/2, 1/400, 12, 250, 1/100, 200, 500, 3, 0, 1/2, 4/5, 42, false, 1⟩
        [0] [0] [1] [5, 6]
      = Barnes_Hut ⟨1/2, 1/400, 12, 250, 1/100, 200, 500, 3, 0, 1/2, 4/5, 42, false, 1⟩
        [0] [0] [1] [5, 6] :=
  run_deterministic _ _ _ _ _ _ _ _ _ _ (by decide) rfl rfl rfl rfl rfl

def agreeNonAttr (s t : BHState) : Prop :=
  s.VAL = t.VAL ∧ s.Yx = t.Yx ∧ s.Yy = t.Yy ∧ s.gainsx = t.gainsx ∧
  s.gainsy = t.gainsy ∧ s.oldx = t.oldx ∧ s.oldy = t.oldy ∧
  s.Z_norm = t.Z_norm ∧ s.momentum = t.momentum ∧
  s.learning_rate = t.learning_rate ∧ s.max_bounds = t.max_bounds ∧ s.iter = t.iter

theorem bh_step_attr_indep (P : BHParams) (C R : List ℕ) (s t : BHState)
    (h : agreeNonAttr s t) : bh_step P C R s = bh_step P C R t := by
  obtain ⟨h1, h2, h3, h4, h5, h6, h7, h8, h9, h10, h11, h12⟩ := h
  cases s
  cases t
  dsimp only at h1 h2 h3 h4 h5 h6 h7 h8 h9 h10 h11 h12
  subst h1 h2 h3 h4 h5 h6 h7 h8 h9 h10 h11 h12
  rfl

theorem bh_loop_attr_indep (P : BHParams) (C R : List ℕ) :
    ∀ k (s t : BHState), agreeNonAttr s t →
      agreeNonAttr (bh_loop P C R k s) (bh_loop P C R k t) := by
  intro k
  induction k with
  | zero => intro s t h; exact h
  | succ k ih =>
    intro s t h
    have he : bh_step P C R (bh_loop P C R k s) = bh_step P C R (bh_loop P C R k t) :=
      bh_step_attr_indep P C R _ _ (ih s t h)
    rw [bh_loop_succ, bh_loop_succ, he]
    exact ⟨rfl, rfl, rfl, rfl, rfl, rfl, rfl, rfl, rfl, rfl, rfl, rfl⟩

/-- Claim C9: without PCA initialisation the caller's `Y` buffer is only
ever used as the attraction accumulator, which every iteration resets to
zero before accumulating, and it is fully overwritten with the final
positions on exit; hence two runs that differ only in the pre-call
contents of `Y` return the same final embedding. -/
theorem Y_buffer_independent (P : BHParams) (C R : List ℕ) (V Y1 Y2 : List ℚ)
    (hpca : P.pca_intialization = false) :
    Barnes_Hut P C R V Y1 = Barnes_Hut P C R V Y2 := by
  have hinit : agreeNonAttr (bh_init P V Y1) (bh_init P V Y2) := by
    refine ⟨rfl, ?_, ?_, rfl, rfl, rfl, rfl, rfl, rfl, rfl, rfl, rfl⟩
    · show (bh_init P V Y1).Yx = (bh_init P V Y2).Yx
      simp [bh_init, hpca]
    · show (bh_init P V Y1).Yy = (bh_init P V Y2).Yy
      simp [bh_init, hpca]
  have h := bh_loop_attr_indep P C R P.max_iter _ _ hinit
  show (bh_loop P C R P.max_iter (bh_init P V Y1)).Yx.take P.n
      ++ (bh_loop P C R P.max_iter (bh_init P V Y1)).Yy.take P.n
    = (bh_loop P C R P.max_iter (bh_init P V Y2)).Yx.take P.n
      ++ (bh_loop P C R P.max_iter (bh_init P V Y2)).Yy.take P.n
  rw [h.2.1, h.2.2.1]

/-- Witness for C9: two runs differing only in the pre-call `Y` contents
produce the same output when PCA initialisation is off. -/
theorem Y_buffer_independent_witness :
    Barnes_Hut ⟨1/2, 1/400, 12, 250, 1/100, 200, 500, 2, 0, 1/2, 4/5, 7, false, 1⟩
        [0] [0] [1] [1, 2]
      = Barnes_Hut ⟨1/2, 1/400, 12, 250, 1/100, 200, 500, 2, 0, 1/2, 4/5, 7, false, 1⟩
        [0] [0] [1] [9, -4] :=
  Y_buffer_independent _ [0] [0] [1] [1, 2] [9, -4] rfl

/-- Claim C10: given the solver's ascending eigenvalue array, `eigh`
reverses `W` into descending order and reverses `V` to match; when
`singular_values` is set, each of the first `k` entries of the reversed
`W` is replaced by its square root if positive and by zero otherwise, so
every one of the first `k` output entries is nonnegative (for any square
root function that is nonnegative on positives). -/
theorem eigh_descending_sqrt (W : List ℚ) (V : List (List ℚ)) (k : ℕ) (sq : ℚ → ℚ)
    (hk : k ≤ W.length) (hW : W.Pairwise (· ≤ ·)) (hsq : ∀ x, 0 < x → 0 ≤ sq x) :
    ((eigh W V k false sq).1 = W.reverse ∧
      (eigh W V k false sq).1.Pairwise (· ≥ ·)) ∧
    (eigh W V k true sq).2 = V.reverse ∧
    (eigh W V k true sq).1.take k
      = (W.reverse.take k).map (fun x => if 0 < x then sq x else 0) ∧
    (∀ x ∈ (eigh W V k true sq).1.take k, 0 ≤ x) := by
  have hlen : ((W.reverse.take k).map (fun x => if 0 < x then sq x else 0)).length = k := by
    simp only [List.length_map, List.length_take, List.length_reverse]
    omega
  have ht : (eigh W V k true sq).1.take k
      = (W.reverse.take k).map (fun x => if 0 < x then sq x else 0) := by
    show (((W.reverse.take k).map (fun x => if 0 < x then sq x else 0))
        ++ W.reverse.drop k).take k = _
    rw [List.take_append_of_le_length (le_of_eq hlen.symm),
        List.take_of_length_le (le_of_eq hlen)]
  refine ⟨⟨rfl, ?_⟩, rfl, ht, ?_⟩
  · show W.reverse.Pairwise (· ≥ ·)
    exact List.pairwise_reverse.mpr (hW.imp fun h => h)
  · intro x hx
    rw [ht] at hx
    rcases List.mem_map.mp hx with ⟨y, hy, rfl⟩
    by_cases hp : 0 < y
    · rw [if_pos hp]
      exact hsq y hp
    · rw [if_neg hp]

/-- Witness for C10: the ascending pair `[-1, 4]` is reversed into
descending order and, under the singular-value map with the identity as
square root, the first two output entries are nonnegative. -/
theorem eigh_descending_sqrt_witness :
    (eigh ([-1, 4] : List ℚ) [[1], [2]] 2 false (fun x => x)).1.Pairwise (· ≥ ·) ∧
    (∀ x ∈ (eigh ([-1, 4] : List ℚ) [[1], [2]] 2 true (fun x => x)).1.take 2, 0 ≤ x) := by
  have h := eigh_descending_sqrt [-1, 4] [[1], [2]] 2 (fun x => x) (by decide) (by decide)
    (fun x hx => le_of_lt hx)
  exact ⟨h.1.2, h.2.2.2⟩
